import Mathlib

/-!
Verification development for the hacklytics-2026 voice-chat moderation core.

The Python sources are shallowly embedded:
strings become `List Char`, floats become `ℚ`, JSON payloads become an
inductive `Json` type, and the websocket consumers' mutable per-session
state becomes explicit state passing.  Character predicates (`isalnum`,
`isspace`, `lower`) are modelled on the ASCII fragment, which is the
fragment exercised by every concrete input appearing below.
-/

namespace Hacklytics

/-- Python `str.lower` on a single character, ASCII fragment. -/
def pyToLower (c : Char) : Char :=
  if 65 ≤ c.toNat ∧ c.toNat ≤ 90 then Char.ofNat (c.toNat + 32) else c

/-- Python `str.isalnum` on a single character, ASCII fragment. -/
def pyIsAlnum (c : Char) : Bool :=
  (48 ≤ c.toNat ∧ c.toNat ≤ 57) ∨
  (65 ≤ c.toNat ∧ c.toNat ≤ 90) ∨
  (97 ≤ c.toNat ∧ c.toNat ≤ 122)

/-- Python `str.isspace` on a single character, ASCII fragment. -/
def pyIsSpace (c : Char) : Bool :=
  c.toNat = 32 ∨ c.toNat = 9 ∨ c.toNat = 10 ∨ c.toNat = 13 ∨
  c.toNat = 11 ∨ c.toNat = 12

/-- Whether the regex class backslash-w matches a character (ASCII fragment):
alphanumeric or underscore. -/
def isWordChar (c : Char) : Bool :=
  pyIsAlnum c || c = Char.ofNat 95

/-- Whether the classifier regex `_NON_ALNUM_RE` (class of characters outside
lowercase a-z and 0-9) matches at a character. -/
def nonAlnumMatch (c : Char) : Bool :=
  ¬ ((97 ≤ c.toNat ∧ c.toNat ≤ 122) ∨ (48 ≤ c.toNat ∧ c.toNat ≤ 57))

/-- Python `str.strip`: drop leading and trailing whitespace. -/
def pyStrip (s : List Char) : List Char :=
  ((s.dropWhile pyIsSpace).reverse.dropWhile pyIsSpace).reverse

/-- Python `str.lower` over a whole string, ASCII fragment. -/
def pyLower (s : List Char) : List Char := s.map pyToLower

/-- Python `" ".join(segments)`. -/
def joinSpace : List (List Char) → List Char
  | [] => []
  | [s] => s
  | s :: rest => s ++ Char.ofNat 32 :: joinSpace rest

/-! ## normalize_text

Embedding of `classifier.normalize_text`.  The source iterates the input
with `enumerate`, keeping the lowercase of each alphanumeric character
(inserting one space for any pending separator run between kept tokens)
and recording, for every kept output character, the index of the source
character that produced it. -/

/-- Loop body of `normalize_text`: the remaining input, the index of its
first character, and the two loop flags `pending_space` and `saw_content`.
Returns the characters and index map appended by the rest of the loop. -/
def normCore : List Char → Nat → Bool → Bool → List Char × List Nat
  | [], _, _, _ => ([], [])
  | ch :: rest, idx, pending, saw =>
    let lowered := pyToLower ch
    if pyIsAlnum lowered then
      let tail := normCore rest (idx + 1) false true
      if pending ∧ saw then
        (Char.ofNat 32 :: lowered :: tail.1, idx :: idx :: tail.2)
      else
        (lowered :: tail.1, idx :: tail.2)
    else if pyIsSpace lowered || nonAlnumMatch lowered then
      normCore rest (idx + 1) (if saw then true else pending) saw
    else
      normCore rest (idx + 1) pending saw

/-- Embedding of `classifier.normalize_text`: normalized characters plus the
index map back into the original text. -/
def normalize_text (text : List Char) : List Char × List Nat :=
  let built := normCore text 0 false false
  let normalized := pyStrip built.1
  if normalized.isEmpty then ([], [])
  else (normalized, built.2.take normalized.length)

/-! ## Bounded edit distance

Embedding of `classifier._edit_distance_at_most_one` (a two-pointer scan),
together with reference definitions of the Levenshtein distance (insert,
delete, substitute) and of the Damerau variant that additionally counts a
transposition of two adjacent characters as a single edit. -/

/-- Value of the trailing `if i < len(left) or j < len(right)` step of
`_edit_distance_at_most_one`: the final edit count, compared with one. -/
def edTail (xs ys : List Char) (edits : Nat) : Bool :=
  (edits + (if xs.isEmpty ∧ ys.isEmpty then 0 else 1)) ≤ 1

/-- While-loop of `_edit_distance_at_most_one` specialised to equal original
lengths (a mismatch advances both pointers). -/
def edLoopEq : List Char → List Char → Nat → Bool
  | x :: xs, y :: ys, edits =>
    if x = y then edLoopEq xs ys edits
    else if edits + 1 > 1 then false
    else edLoopEq xs ys (edits + 1)
  | xs, ys, edits => edTail xs ys edits

/-- While-loop of `_edit_distance_at_most_one` specialised to
`len(left) > len(right)` (a mismatch advances the left pointer only). -/
def edLoopGt : List Char → List Char → Nat → Bool
  | x :: xs, y :: ys, edits =>
    if x = y then edLoopGt xs ys edits
    else if edits + 1 > 1 then false
    else edLoopGt xs (y :: ys) (edits + 1)
  | xs, ys, edits => edTail xs ys edits

/-- While-loop of `_edit_distance_at_most_one` specialised to
`len(right) > len(left)` (a mismatch advances the right pointer only). -/
def edLoopLt : List Char → List Char → Nat → Bool
  | xs, y :: ys, edits =>
    match xs with
    | x :: xs2 =>
      if x = y then edLoopLt xs2 ys edits
      else if edits + 1 > 1 then false
      else edLoopLt (x :: xs2) ys (edits + 1)
    | [] => edTail [] (y :: ys) edits
  | xs, [], edits => edTail xs [] edits

/-- Embedding of `classifier._edit_distance_at_most_one`.  The source's
single while-loop consults the (fixed) lengths of its two arguments to
pick which pointer to advance on a mismatch, so it is embedded as one of
the three loops above according to the length comparison. -/
def edit_distance_at_most_one (left right : List Char) : Bool :=
  if left = right then true
  else if (left.length : Int) - right.length > 1 ∨
          (right.length : Int) - left.length > 1 then false
  else match compare left.length right.length with
    | Ordering.gt => edLoopGt left right 0
    | Ordering.lt => edLoopLt left right 0
    | Ordering.eq => edLoopEq left right 0

/-- Reference Levenshtein distance (insertions, deletions and substitutions
each cost one). -/
def lev : List Char → List Char → Nat
  | [], ys => ys.length
  | xs, [] => xs.length
  | x :: xs, y :: ys =>
    if x = y then lev xs ys
    else 1 + min (min (lev xs (y :: ys)) (lev (x :: xs) ys)) (lev xs ys)
  termination_by l r => l.length + r.length

/-- Fueled Damerau/Levenshtein distance: like `lev` but an adjacent
transposition also costs one edit.  The fuel dominates the sum of the list
lengths, so `dlev` below always runs with enough fuel. -/
def dlevF : Nat → List Char → List Char → Nat
  | 0, xs, ys => xs.length + ys.length
  | _ + 1, [], ys => ys.length
  | _ + 1, xs, [] => xs.length
  | f + 1, x :: xs, y :: ys =>
    if x = y then dlevF f xs ys
    else
      let base := 1 + min (min (dlevF f xs (y :: ys)) (dlevF f (x :: xs) ys))
        (dlevF f xs ys)
      match xs, ys with
      | a :: xs2, b :: ys2 =>
        if x = b ∧ y = a then min base (1 + dlevF f xs2 ys2) else base
      | _, _ => base

/-- Damerau/Levenshtein distance counting adjacent transpositions as one
edit. -/
def dlev (xs ys : List Char) : Nat :=
  dlevF (xs.length + ys.length) xs ys

/-- Number of positions at which two equal-length strings differ (with the
excess length counted when lengths differ). -/
def countMismatch : List Char → List Char → Nat
  | x :: xs, y :: ys => (if x = y then 0 else 1) + countMismatch xs ys
  | xs, [] => xs.length
  | [], ys => ys.length

/-- The second string arises from the first by inserting one character. -/
def insertRel (l r : List Char) : Prop :=
  ∃ p c s, l = p ++ s ∧ r = p ++ c :: s


/-! ## Regex matching over the normalized text

The classifier compiles each lexicon term into the case-insensitive
pattern consisting of the escaped term between two word boundaries, and
runs `finditer` over the normalized text; `_WORD_RE.finditer` tokenizes
the normalized text into maximal word-character runs. -/

/-- Whether a word boundary sits immediately before position `p` of `s`
(start of string, or previous character not a word character). -/
def leftBoundary (s : List Char) (p : Nat) : Bool :=
  p = 0 || (match s[p-1]? with | some c => ¬ isWordChar c | none => true)

/-- Whether a word boundary sits immediately after position `e` of `s`
(end of string, or character at `e` not a word character). -/
def rightBoundary (s : List Char) (e : Nat) : Bool :=
  e = s.length || (match s[e]? with | some c => ¬ isWordChar c | none => true)

/-- Whether the word-boundary-anchored, case-insensitive pattern for term
`t` matches `s` at position `p`. -/
def matchAtB (t s : List Char) (p : Nat) : Bool :=
  leftBoundary s p &&
  pyLower ((s.drop p).take t.length) = pyLower t &&
  rightBoundary s (p + t.length)

/-- Scan of `finditer`: try positions left to right from `p`, and resume
after the end of each match (one step past it for a zero-width match, as
the `re` module does).  The fuel dominates the number of scan steps. -/
def findIterAux (t s : List Char) : Nat → Nat → List (Nat × Nat)
  | 0, _ => []
  | fuel + 1, p =>
    if s.length < p then []
    else if matchAtB t s p then
      (p, p + t.length) ::
        findIterAux t s fuel (if t.isEmpty then p + 1 else p + t.length)
    else findIterAux t s fuel (p + 1)

/-- Embedding of `pattern.finditer(normalized_text)` for the compiled
pattern of term `t`: the non-overlapping matches, in scan order. -/
def findIter (t s : List Char) : List (Nat × Nat) :=
  findIterAux t s (s.length + 1) 0

/-- Embedding of the boolean outcome of `pattern.search(normalized_text)`:
whether the pattern for `t` matches anywhere in `s`. -/
def searchFound (t s : List Char) : Bool :=
  (List.range (s.length + 1)).any (matchAtB t s)

/-- State-passing scan of `_WORD_RE.finditer`: the optional open run is
the start and one-past-end of the word-character run currently being
read. -/
def wordIterAux : List Char → Nat → Option (Nat × Nat) → List (Nat × Nat)
  | [], _, none => []
  | [], _, some run => [run]
  | c :: rest, idx, none =>
    if isWordChar c then wordIterAux rest (idx + 1) (some (idx, idx + 1))
    else wordIterAux rest (idx + 1) none
  | c :: rest, idx, some (s, e) =>
    if isWordChar c then wordIterAux rest (idx + 1) (some (s, e + 1))
    else (s, e) :: wordIterAux rest (idx + 1) none

/-- Embedding of `list(_WORD_RE.finditer(normalized_text))`: the maximal
word-character runs of `s`, as spans. -/
def wordIter (s : List Char) : List (Nat × Nat) :=
  wordIterAux s 0 none

/-- Invariant carried by the open run of `wordIterAux`. -/
def runInv (orig : List Char) (idx : Nat) : Option (Nat × Nat) → Prop
  | none => idx = 0 ∨ isWordChar (orig.getD (idx - 1) (Char.ofNat 32)) = false
  | some (s0, e0) => e0 = idx ∧ s0 < e0 ∧
      (∀ i, s0 ≤ i → i < e0 → isWordChar (orig.getD i (Char.ofNat 32)) = true) ∧
      (s0 = 0 ∨ isWordChar (orig.getD (s0 - 1) (Char.ofNat 32)) = false)

/-- Specification of one token: a non-empty in-bounds span of word
characters that cannot be extended on either side. -/
def tokenSpec (orig : List Char) (sn en : Nat) : Prop :=
  sn < en ∧ en ≤ orig.length ∧
  (∀ i, sn ≤ i → i < en → isWordChar (orig.getD i (Char.ofNat 32)) = true) ∧
  (sn = 0 ∨ isWordChar (orig.getD (sn - 1) (Char.ofNat 32)) = false) ∧
  (en = orig.length ∨ isWordChar (orig.getD en (Char.ofNat 32)) = false)


/-! ## Match collection

Embeddings of `_collect_exact_matches`, `_collect_fuzzy_matches` and
`classify_text`.  A lexicon entry (after `load_flag_terms`) carries a
normalized term and an integer severity; compiled pattern state is
implicit in `findIter`/`searchFound`.  The `seen` set of
`(start, end, term)` keys is threaded explicitly. -/

/-- Lexicon entry as produced by `load_flag_terms` and consumed by
`_compile_patterns`: a normalized term and its severity. -/
structure FlagTerm where
  term : List Char
  severity : Nat
deriving DecidableEq

/-- One accepted match; the field `stop` embeds the source's `end` key of
the match dict (`end` is reserved in Lean). -/
structure MatchRec where
  term : List Char
  start : Nat
  stop : Nat
  severity : Nat
deriving DecidableEq

/-- Dedup key of a match, as used for the `seen` set: original-text start,
original-text end, and term. -/
def matchKey (m : MatchRec) : Nat × Nat × List Char :=
  (m.start, m.stop, m.term)

/-- Python list indexing including the negative-index convention (used to
embed `index_map[end_n - 1]`, whose index can be `-1` for a zero-width
match). -/
def pyIndex (l : List Nat) (i : Int) : Nat :=
  if 0 ≤ i then l.getD i.toNat 0 else l.getD (l.length - (-i).toNat) 0

/-- Inner loop of `_collect_exact_matches` for one compiled term: walk its
`finditer` hits, dropping spans outside the index map and spans whose
`(start, end, term)` key is already seen. -/
def collectExactForTerm (idxMap : List Nat) (item : FlagTerm) :
    List (Nat × Nat) → List (Nat × Nat × List Char) →
    List MatchRec × List (Nat × Nat × List Char)
  | [], seen => ([], seen)
  | (sn, en) :: hits, seen =>
    if idxMap.length ≤ sn ∨ (idxMap.length : Int) ≤ (en : Int) - 1 then
      collectExactForTerm idxMap item hits seen
    else
      let so := idxMap.getD sn 0
      let eo := pyIndex idxMap ((en : Int) - 1) + 1
      let key := (so, eo, item.term)
      if key ∈ seen then collectExactForTerm idxMap item hits seen
      else
        let rest := collectExactForTerm idxMap item hits (key :: seen)
        (⟨item.term, so, eo, item.severity⟩ :: rest.1, rest.2)

/-- Outer loop of `_collect_exact_matches` over the compiled patterns. -/
def collectExactGo (normText : List Char) (idxMap : List Nat) :
    List FlagTerm → List (Nat × Nat × List Char) →
    List MatchRec × List (Nat × Nat × List Char)
  | [], seen => ([], seen)
  | item :: rest, seen =>
    let here := collectExactForTerm idxMap item (findIter item.term normText) seen
    let later := collectExactGo normText idxMap rest here.2
    (here.1 ++ later.1, later.2)

/-- Embedding of `_collect_exact_matches` with the compiled pattern list as
a parameter (the source reads the module-global `_FLAG_PATTERNS`). -/
def collect_exact_matches (terms : List FlagTerm) (normText : List Char)
    (idxMap : List Nat) : List MatchRec × List (Nat × Nat × List Char) :=
  collectExactGo normText idxMap terms []

/-- Inner loop of `_collect_fuzzy_matches` over the word tokens for one
high-severity term. -/
def collectFuzzyWords (normText : List Char) (idxMap : List Nat)
    (item : FlagTerm) :
    List (Nat × Nat) → List (Nat × Nat × List Char) →
    List MatchRec × List (Nat × Nat × List Char)
  | [], seen => ([], seen)
  | (sn, en) :: ws, seen =>
    let candidate := (normText.drop sn).take (en - sn)
    if ¬ edit_distance_at_most_one candidate item.term then
      collectFuzzyWords normText idxMap item ws seen
    else if idxMap.length ≤ sn ∨ (idxMap.length : Int) ≤ (en : Int) - 1 then
      collectFuzzyWords normText idxMap item ws seen
    else
      let so := idxMap.getD sn 0
      let eo := pyIndex idxMap ((en : Int) - 1) + 1
      let key := (so, eo, item.term)
      if key ∈ seen then collectFuzzyWords normText idxMap item ws seen
      else
        let rest := collectFuzzyWords normText idxMap item ws (key :: seen)
        (⟨item.term, so, eo, item.severity⟩ :: rest.1, rest.2)

/-- Outer loop of `_collect_fuzzy_matches` over the high-severity
single-word terms: terms shorter than five characters, and terms with an
exact match somewhere in the text, are skipped. -/
def collectFuzzyGo (normText : List Char) (idxMap : List Nat)
    (words : List (Nat × Nat)) :
    List FlagTerm → List (Nat × Nat × List Char) →
    List MatchRec × List (Nat × Nat × List Char)
  | [], seen => ([], seen)
  | item :: rest, seen =>
    if item.term.length < 5 then collectFuzzyGo normText idxMap words rest seen
    else if searchFound item.term normText then
      collectFuzzyGo normText idxMap words rest seen
    else
      let here := collectFuzzyWords normText idxMap item words seen
      let later := collectFuzzyGo normText idxMap words rest here.2
      (here.1 ++ later.1, later.2)

/-- Embedding of the module-global `_HIGH_SEVERITY_SINGLE_WORD_TERMS`:
terms without a space and with severity at least three. -/
def highSeveritySingleWordTerms (terms : List FlagTerm) : List FlagTerm :=
  terms.filter (fun t => Char.ofNat 32 ∉ t.term ∧ 3 ≤ t.severity)

/-- Embedding of `_collect_fuzzy_matches` (the source also mutates `seen`
in place; only the match list is consumed by `classify_text`). -/
def collect_fuzzy_matches (terms : List FlagTerm) (normText : List Char)
    (idxMap : List Nat) (seen : List (Nat × Nat × List Char)) :
    List MatchRec :=
  if normText.isEmpty then []
  else
    (collectFuzzyGo normText idxMap (wordIter normText)
      (highSeveritySingleWordTerms terms) seen).1

/-- Stable insertion of a match into a list sorted by `(start, stop)`: the
inserted element goes before the first element not strictly below it,
matching Python's stable `list.sort`. -/
def insertSorted (x : MatchRec) : List MatchRec → List MatchRec
  | [] => [x]
  | y :: ys =>
    if y.start < x.start ∨ (y.start = x.start ∧ y.stop < x.stop) then
      y :: insertSorted x ys
    else x :: y :: ys

/-- Stable sort of the match list by `(start, stop)`, embedding
`matches.sort(key ...)`. -/
def sortMatches : List MatchRec → List MatchRec
  | [] => []
  | x :: xs => insertSorted x (sortMatches xs)

/-- Python `round` (half to even) on a rational, used for the legacy
`severity` result field. -/
def pyRoundHalfEven (q : ℚ) : Int :=
  if q - ⌊q⌋ < 1/2 then ⌊q⌋
  else if 1/2 < q - ⌊q⌋ then ⌊q⌋ + 1
  else if Even ⌊q⌋ then ⌊q⌋ else ⌊q⌋ + 1

/-- Result of `classify_text`, one field per key of the returned dict; the
source's `score_0_1` and `score` keys both hold the same computed score,
and `matchList` embeds the `matches` key (`matches` is reserved in
Lean). -/
structure ClassifyResult where
  transcript : List Char
  flagged : Bool
  label : List Char
  score_0_1 : ℚ
  matchList : List MatchRec
  score : ℚ
  severity : Int
deriving DecidableEq

/-- Embedding of `classify_text`, parameterised by the loaded lexicon (the
source reads the module globals built by `load_flag_terms` and
`_compile_patterns`). -/
def classify_text (terms : List FlagTerm) (text : List Char) : ClassifyResult :=
  let transcript := pyStrip text
  if transcript.isEmpty then
    { transcript := transcript, flagged := false, label := "ok".toList,
      score_0_1 := 0, matchList := [], score := 0, severity := 0 }
  else
    let nt := normalize_text transcript
    let exact := collect_exact_matches terms nt.1 nt.2
    let ms := sortMatches (exact.1 ++ collect_fuzzy_matches terms nt.1 nt.2 exact.2)
    let totalSeverity : Nat := (ms.map (fun m => m.severity)).sum
    let score : ℚ := min 1 ((totalSeverity : ℚ) / 10)
    let flagged := decide ((0 : ℚ) < score)
    { transcript := transcript, flagged := flagged,
      label := if flagged then "flag".toList else "ok".toList,
      score_0_1 := score, matchList := ms, score := score,
      severity := pyRoundHalfEven (score * 100) }

/-- Keys of the dict returned by `classify_text`, in source order; both
return branches of the source build a dict with exactly these keys. -/
def classify_text_keys (text : List Char) : List String :=
  if (pyStrip text).isEmpty then
    ["transcript", "flagged", "label", "score_0_1", "matches", "score",
     "severity"]
  else
    ["transcript", "flagged", "label", "score_0_1", "matches", "score",
     "severity"]

/-! ## Streaming session scoring decision

Embedding of `FlagAudioConsumer._maybe_score` from
`apps/databricks/consumers.py`.  The consumer's mutable attributes become
an explicit state record; `time.monotonic()` becomes the parameter `now`;
and the outcome of the remote call (which is external input) becomes the
parameter `remoteOk` (false embeds the `except` branch). -/

/-- Per-session scoring state of `FlagAudioConsumer`: the accumulated
final segments, the time of the last attempted scoring call, and the last
successfully scored transcript. -/
structure SessionScoringState where
  transcriptSegments : List (List Char)
  lastScoreTime : ℚ
  lastScoredText : List Char
deriving DecidableEq

/-- How one `_maybe_score` invocation exited: empty transcript, throttle
skip, unchanged-text skip, unconfigured endpoint error, or an attempted
remote scoring call (successful or raising). -/
inductive ScoreStep where
  | noTranscript
  | throttled
  | deduped
  | noEndpoint
  | attempted (success : Bool)
deriving DecidableEq

/-- Embedding of `FlagAudioConsumer._maybe_score`: the updated session
state together with how the call exited. -/
def maybe_score (endpointName : List Char) (scoreEverySeconds : ℚ)
    (st : SessionScoringState) (now : ℚ) (force : Bool) (remoteOk : Bool) :
    SessionScoringState × ScoreStep :=
  let transcript := pyStrip (joinSpace st.transcriptSegments)
  if transcript.isEmpty then (st, ScoreStep.noTranscript)
  else if ¬ (force || decide (scoreEverySeconds ≤ now - st.lastScoreTime)) then
    (st, ScoreStep.throttled)
  else if ¬ force ∧ transcript = st.lastScoredText then (st, ScoreStep.deduped)
  else if endpointName.isEmpty then (st, ScoreStep.noEndpoint)
  else if remoteOk then
    ({ st with lastScoreTime := now, lastScoredText := transcript },
      ScoreStep.attempted true)
  else
    ({ st with lastScoreTime := now }, ScoreStep.attempted false)

/-! ## Stop handling in the Idle state

Embeddings of the `recognizer is None` branches of
`FlagAudioConsumer._handle_stop` (apps/databricks/consumers.py) and
`VoiceChatStreamConsumer._stop_stream` (apps/voicechats/consumers.py).
Each such branch sends one error message, optionally closes the
connection, and returns without touching the session state; the branch
taken when a recognizer is bound proceeds to finalize the stream and is
outside these claims. -/

/-- An `_send_error` call: the error text and whether the connection is
closed after sending it. -/
structure ErrorReport where
  message : List Char
  closeConnection : Bool
deriving DecidableEq

/-- Outcome of a stop handler: a protocol error report (Idle state), or
proceeding to finalize the stream (Streaming state). -/
inductive StopOutcome where
  | protocolError (report : ErrorReport)
  | finalize
deriving DecidableEq

/-- Embedding of the dispatch of `FlagAudioConsumer._handle_stop` on
`self.recognizer`, with the session scoring state passed through: the
Idle branch sends `_send_error("No active stream. Send start first.",
close=True)` and returns the state unchanged. -/
def flagAudio_handle_stop (recognizerBound : Bool)
    (st : SessionScoringState) : SessionScoringState × StopOutcome :=
  if recognizerBound then (st, StopOutcome.finalize)
  else
    (st, StopOutcome.protocolError
      ⟨"No active stream. Send start first.".toList, true⟩)

/-- Embedding of the dispatch of `VoiceChatStreamConsumer._stop_stream` on
`self.recognizer`, with the consumer's `final_segments` passed through:
the Idle branch sends `_send_error("Stream not started.")` (which does
not close the connection) and returns the state unchanged. -/
def voiceChat_stop_stream (recognizerBound : Bool)
    (finalSegments : List (List Char)) :
    List (List Char) × StopOutcome :=
  if recognizerBound then (finalSegments, StopOutcome.finalize)
  else
    (finalSegments, StopOutcome.protocolError ⟨"Stream not started.".toList, false⟩)

/-! ## JSON payloads and the remote score extraction

A Python JSON-like value; `Json.null` also stands for Python `None`, which
the source code conflates with JSON null (for example `dict.get` misses).
Python `bool` is a subclass of `int`, so every `isinstance(value, (int,
float))` test in the source also accepts booleans; where the source
performs that test, the embedding accepts `Json.bool` and converts via
`float(True) = 1.0`, `float(False) = 0.0`. -/

/-- JSON-like Python value. -/
inductive Json where
  | null
  | bool (b : Bool)
  | num (q : ℚ)
  | str (s : List Char)
  | arr (items : List Json)
  | obj (fields : List (List Char × Json))

/-- Python `dict.get`: first binding of the key, if any. -/
def pyGet (fields : List (List Char × Json)) (k : List Char) : Option Json :=
  (fields.find? (fun kv => kv.1 = k)).map (fun kv => kv.2)

/-- Result of `float(value)` guarded by `isinstance(value, (int, float))`:
numbers pass through, booleans convert to one or zero, everything else is
rejected. -/
def jsonNumVal : Json → Option ℚ
  | Json.num q => some q
  | Json.bool b => some (if b then 1 else 0)
  | _ => none

/-- Key-priority loop shared by the deep numeric searches: return the
first key whose value passes `isinstance(value, (int, float))`. -/
def keyLoopNum (fields : List (List Char × Json)) :
    List (List Char) → Option ℚ
  | [] => none
  | k :: ks =>
    match pyGet fields k with
    | some v =>
      match jsonNumVal v with
      | some q => some q
      | none => keyLoopNum fields ks
    | none => keyLoopNum fields ks

mutual

/-- Embedding of `_extract_numeric_score` from
`apps/voicechats/consumers.py`: accept the payload itself if numeric
(booleans included), then try the recognized keys of a dict, then recurse
through dict values, then through list items. -/
def extract_numeric_score : Json → Option ℚ
  | Json.num q => some q
  | Json.bool b => some (if b then 1 else 0)
  | Json.obj fields =>
    match keyLoopNum fields
      ["toxicity".toList, "score".toList, "probability".toList,
       "toxic".toList, "prediction".toList] with
    | some q => some q
    | none => extractNumVals fields
  | Json.arr items => extractNumItems items
  | _ => none

/-- Recursion of `_extract_numeric_score` through `payload.values()`. -/
def extractNumVals : List (List Char × Json) → Option ℚ
  | [] => none
  | kv :: rest =>
    match extract_numeric_score kv.2 with
    | some q => some q
    | none => extractNumVals rest

/-- Recursion of `_extract_numeric_score` through the items of a list. -/
def extractNumItems : List Json → Option ℚ
  | [] => none
  | j :: rest =>
    match extract_numeric_score j with
    | some q => some q
    | none => extractNumItems rest

end

/-- The consumers' `flagged = bool(score is not None and score >=
self.toxicity_threshold)`. -/
def consumerFlagged (score : Option ℚ) (threshold : ℚ) : Bool :=
  match score with
  | some s => decide (threshold ≤ s)
  | none => false

mutual

/-- Embedding of `_find_first_numeric` from
`apps/voicechats/databricks/client.py`: like `extract_numeric_score` but
with the key priority `score`, `probability`, `confidence`, `toxicity`,
`prediction`. -/
def find_first_numeric : Json → Option ℚ
  | Json.num q => some q
  | Json.bool b => some (if b then 1 else 0)
  | Json.obj fields =>
    match keyLoopNum fields
      ["score".toList, "probability".toList, "confidence".toList,
       "toxicity".toList, "prediction".toList] with
    | some q => some q
    | none => findNumVals fields
  | Json.arr items => findNumItems items
  | _ => none

/-- Recursion of `_find_first_numeric` through `payload.values()`. -/
def findNumVals : List (List Char × Json) → Option ℚ
  | [] => none
  | kv :: rest =>
    match find_first_numeric kv.2 with
    | some q => some q
    | none => findNumVals rest

/-- Recursion of `_find_first_numeric` through the items of a list. -/
def findNumItems : List Json → Option ℚ
  | [] => none
  | j :: rest =>
    match find_first_numeric j with
    | some q => some q
    | none => findNumItems rest

end

/-- Key loop of `_find_first_label`: the first recognized key holding a
string. -/
def keyLoopLabel (fields : List (List Char × Json)) :
    List (List Char) → Option (List Char)
  | [] => none
  | k :: ks =>
    match pyGet fields k with
    | some (Json.str s) => some s
    | _ => keyLoopLabel fields ks

mutual

/-- Embedding of `_find_first_label` from
`apps/voicechats/databricks/client.py`.  Note the recursive loops test
the recursive result for Python truthiness (`if found:`), so an empty
string found deeper in the payload is skipped, while a top-level empty
string is returned. -/
def find_first_label : Json → Option (List Char)
  | Json.str s => some s
  | Json.obj fields =>
    match keyLoopLabel fields
      ["label".toList, "class".toList, "prediction".toList,
       "category".toList] with
    | some s => some s
    | none => findLabelVals fields
  | Json.arr items => findLabelItems items
  | _ => none

/-- Recursion of `_find_first_label` through `payload.values()`. -/
def findLabelVals : List (List Char × Json) → Option (List Char)
  | [] => none
  | kv :: rest =>
    match find_first_label kv.2 with
    | some s => if s.isEmpty then findLabelVals rest else some s
    | none => findLabelVals rest

/-- Recursion of `_find_first_label` through the items of a list. -/
def findLabelItems : List Json → Option (List Char)
  | [] => none
  | j :: rest =>
    match find_first_label j with
    | some s => if s.isEmpty then findLabelItems rest else some s
    | none => findLabelItems rest

end

/-- Python `str.split(sep)` keeping empty segments. -/
def pySplit (sep : Char) : List Char → List (List Char)
  | [] => [[]]
  | c :: rest =>
    match pySplit sep rest with
    | [] => [[]]
    | grp :: grps => if c = sep then [] :: grp :: grps else (c :: grp) :: grps

/-- Loop of `_extract_field` over the dotted-path segments.  `Json.null`
stands for Python `None`, both as a missing-key result and as the early
`return None`. -/
def extractFieldLoop : Json → List (List Char) → Json
  | cur, [] => cur
  | cur, seg :: rest =>
    match cur with
    | Json.obj fields =>
      extractFieldLoop ((pyGet fields seg).getD Json.null) rest
    | Json.arr items =>
      match items with
      | [] => Json.null
      | first :: _ =>
        match first with
        | Json.obj fields =>
          extractFieldLoop ((pyGet fields seg).getD Json.null) rest
        | _ => Json.null
    | _ => Json.null

/-- Embedding of `_extract_field` from
`apps/voicechats/databricks/client.py`. -/
def extract_field (payload : Json) (fieldPath : List Char) : Json :=
  if fieldPath.isEmpty then Json.null
  else extractFieldLoop payload (pySplit (Char.ofNat 46) fieldPath)

/-- Embedding of `_clamp01`. -/
def clamp01 (q : ℚ) : ℚ := max 0 (min 1 q)

/-- Output-extraction spec as resolved by `_resolve_output_spec`: the raw
string values of `score_type`, `score_field`, `label_field` and
`positive_class`. -/
structure OutputSpec where
  scoreType : List Char
  scoreField : List Char
  labelField : List Char
  positiveClass : List Char
deriving DecidableEq

/-- Result fields of `normalize_databricks_output` (omitting the echoed
`raw` payload and `endpoint_id`). -/
structure NormalizedOutput where
  label : Option (List Char)
  score : Option ℚ
  severity : Option Int
  thresholdUsed : ℚ
  flagged : Bool
  scoreType : List Char
deriving DecidableEq

/-- Embedding of `normalize_databricks_output` from
`apps/voicechats/databricks/client.py`, given the resolved output spec
and the configured threshold.  The parameter `sig` stands for the
floating-point `_safe_sigmoid`, which is transcendental and therefore not
representable over `ℚ`; every theorem below quantifies over it. -/
def normalize_databricks_output (sig : ℚ → ℚ) (rawPayload : Json)
    (spec : OutputSpec) (threshold : ℚ) : NormalizedOutput :=
  let scoreType :=
    pyLower (if spec.scoreType.isEmpty then "none".toList else spec.scoreType)
  let positiveClass := pyStrip spec.positiveClass
  let rawScore : Option ℚ :=
    if spec.scoreField.isEmpty then find_first_numeric rawPayload
    else
      match extract_field rawPayload spec.scoreField with
      | Json.bool _ => none
      | Json.num q => some q
      | _ => none
  let labelValue : Option (List Char) :=
    if spec.labelField.isEmpty then find_first_label rawPayload
    else
      match extract_field rawPayload spec.labelField with
      | Json.str s => some s
      | _ => none
  let label : Option (List Char) :=
    match labelValue with
    | some s => if (pyStrip s).isEmpty then none else some (pyStrip s)
    | none => none
  let score : Option ℚ :=
    match rawScore with
    | none => none
    | some r =>
      if scoreType = "probability_0_1".toList then some (clamp01 r)
      else if scoreType = "percent_0_100".toList then some (clamp01 (r / 100))
      else if scoreType = "logit".toList then some (clamp01 (sig r))
      else none
  let flagged : Bool :=
    match label with
    | some l =>
      if positiveClass.isEmpty then consumerFlagged score threshold
      else decide (pyLower l = pyLower positiveClass)
    | none => consumerFlagged score threshold
  { label := label, score := score,
    severity := score.map (fun s => pyRoundHalfEven (s * 100)),
    thresholdUsed := threshold, flagged := flagged, scoreType := scoreType }

/-! ## Claims about the scorer and the session machinery -/

/-- C2 (code_bug evidence): the dict returned by `classify_text` has no
`category_scores` key, evaluated at the text used by the repository's own
test `test_classifier_flags_known_term`, which asserts that the key is
present. -/
theorem c2_no_category_scores :
    "category_scores" ∉ classify_text_keys "TERM should trigger a local flag.".toList := by
  decide

/-- C3: for every lexicon and text, the returned score is
`min(1, totalSeverity / 10)` over the accepted matches, `flagged` holds
exactly when the score is positive, the label is `flag` or `ok`
accordingly, and an empty-after-strip text yields the fixed zero result
(independently of the lexicon, so without running the matcher). -/
theorem c3_score_flagged_label (terms : List FlagTerm) (text : List Char) :
    (classify_text terms text).score =
      min 1 (((((classify_text terms text).matchList.map
        (fun m => m.severity)).sum : ℕ) : ℚ) / 10) ∧
    (classify_text terms text).flagged =
      decide ((0 : ℚ) < (classify_text terms text).score) ∧
    (classify_text terms text).label =
      (if (classify_text terms text).flagged then "flag".toList
       else "ok".toList) ∧
    ((pyStrip text).isEmpty = true →
      classify_text terms text =
        { transcript := pyStrip text, flagged := false, label := "ok".toList,
          score_0_1 := 0, matchList := [], score := 0, severity := 0 }) := by
  by_cases h : (pyStrip text).isEmpty
  · simp [classify_text, h]
  · simp [classify_text, h]

/-- C3 witness: the whitespace-only input, with a non-trivial lexicon,
produces the fixed zero result. -/
theorem c3_witness :
    classify_text [⟨"useless".toList, 3⟩] "   ".toList =
      { transcript := [], flagged := false, label := "ok".toList,
        score_0_1 := 0, matchList := [], score := 0, severity := 0 } := by
  have h := (c3_score_flagged_label [⟨"useless".toList, 3⟩] "   ".toList).2.2.2
    (by decide)
  simpa using h

/-- C4 counterexample: with an unconfigured endpoint, a forced scoring
step over the non-empty transcript `hello` issues no scoring call at all
(it exits with the endpoint error and leaves the state, including
`lastScoreTime`, unchanged), refuting `a forced scoring call always
scores`. -/
theorem c4_unconfigured_endpoint_counterexample :
    maybe_score [] 1 ⟨["hello".toList], 0, []⟩ 5 true true =
      (⟨["hello".toList], 0, []⟩, ScoreStep.noEndpoint) ∧
    (pyStrip (joinSpace ["hello".toList])).isEmpty = false ∧
    ScoreStep.noEndpoint ≠ ScoreStep.attempted true ∧
    ScoreStep.noEndpoint ≠ ScoreStep.attempted false := by
  refine ⟨by decide, by decide, by decide, by decide⟩

/-- C4 amended: provided the scoring endpoint is configured, for every
step with a non-empty joined transcript a forced call issues a scoring
call; a non-forced call issues one only if the throttle interval has
elapsed and the transcript differs from the last scored text; every
attempted call sets `lastScoreTime` to the current time; and
`lastScoredText` is updated exactly on success, all other exits leaving
the state unchanged. -/
theorem c4_amended_scoring_decision (endpointName : List Char)
    (interval : ℚ) (st : SessionScoringState) (now : ℚ)
    (force : Bool) (remoteOk : Bool)
    (hEndpoint : endpointName.isEmpty = false)
    (hTranscript : (pyStrip (joinSpace st.transcriptSegments)).isEmpty = false) :
    (force = true →
      (maybe_score endpointName interval st now force remoteOk).2 =
        ScoreStep.attempted remoteOk) ∧
    (∀ b, (maybe_score endpointName interval st now force remoteOk).2 =
        ScoreStep.attempted b →
      b = remoteOk ∧
      (maybe_score endpointName interval st now force remoteOk).1.lastScoreTime = now ∧
      (force = false →
        interval ≤ now - st.lastScoreTime ∧
        pyStrip (joinSpace st.transcriptSegments) ≠ st.lastScoredText)) ∧
    ((maybe_score endpointName interval st now force remoteOk).2 =
        ScoreStep.attempted true →
      (maybe_score endpointName interval st now force remoteOk).1.lastScoredText =
        pyStrip (joinSpace st.transcriptSegments)) ∧
    ((maybe_score endpointName interval st now force remoteOk).2 =
        ScoreStep.attempted false →
      (maybe_score endpointName interval st now force remoteOk).1.lastScoredText =
        st.lastScoredText) ∧
    ((∀ b, (maybe_score endpointName interval st now force remoteOk).2 ≠
        ScoreStep.attempted b) →
      (maybe_score endpointName interval st now force remoteOk).1 = st) := by
  unfold maybe_score
  simp only [hTranscript, hEndpoint]
  by_cases hf : force
  · subst hf
    by_cases hok : remoteOk <;> simp [hok]
  · simp only [hf]
    by_cases hthr : decide (interval ≤ now - st.lastScoreTime)
    all_goals by_cases hded : pyStrip (joinSpace st.transcriptSegments) = st.lastScoredText
    all_goals by_cases hok : remoteOk
    all_goals simp_all

/-- C4 witness: a forced step with a configured endpoint and transcript
`hello` issues a successful scoring call. -/
theorem c4_witness :
    (maybe_score "e".toList 1 ⟨["hello".toList], 0, []⟩ 5 true true).2 =
      ScoreStep.attempted true := by
  exact (c4_amended_scoring_decision "e".toList 1 ⟨["hello".toList], 0, []⟩
    5 true true (by decide) (by decide)).1 rfl

/-- C9 counterexample: in `FlagAudioConsumer`, a stop message in the Idle
state (no recognizer bound) produces an error report that closes the
connection, refuting `the connection stays open`. -/
theorem c9_flagaudio_closes_counterexample :
    flagAudio_handle_stop false ⟨[], 0, []⟩ =
      (⟨[], 0, []⟩, StopOutcome.protocolError
        ⟨"No active stream. Send start first.".toList, true⟩) ∧
    (ErrorReport.mk "No active stream. Send start first.".toList
      true).closeConnection = true := by
  refine ⟨by decide, by decide⟩

/-- C9 amended: a stop in the Idle state is a non-fatal protocol error in
the sense that an error is reported to the caller and the session state
is unchanged in both consumers; `VoiceChatStreamConsumer` keeps the
connection open, while `FlagAudioConsumer` closes it after sending the
error. -/
theorem c9_amended_stop_idle (st : SessionScoringState)
    (segs : List (List Char)) :
    flagAudio_handle_stop false st =
      (st, StopOutcome.protocolError
        ⟨"No active stream. Send start first.".toList, true⟩) ∧
    voiceChat_stop_stream false segs =
      (segs, StopOutcome.protocolError ⟨"Stream not started.".toList, false⟩) := by
  exact ⟨rfl, rfl⟩

/-- C10: the deep numeric search of the session consumer treats JSON
booleans as numbers: the payload `true` itself extracts as `1.0`; a dict
whose `toxicity` key holds `true` extracts as `1.0` (the key loop runs
before any recursion); the consumer flags such a score at any threshold
at most one; and the remote-output normalizer rejects a boolean raw score
reached through a configured `score_field`, yielding score `None`. -/
theorem c10_bool_score_handling :
    extract_numeric_score (Json.bool true) = some 1 ∧
    (∀ fields, pyGet fields "toxicity".toList = some (Json.bool true) →
      extract_numeric_score (Json.obj fields) = some 1) ∧
    (∀ th : ℚ, th ≤ 1 →
      consumerFlagged (extract_numeric_score (Json.bool true)) th = true) ∧
    (∀ (sig : ℚ → ℚ) (payload : Json) (spec : OutputSpec) (th : ℚ) (b : Bool),
      spec.scoreField.isEmpty = false →
      extract_field payload spec.scoreField = Json.bool b →
      (normalize_databricks_output sig payload spec th).score = none) := by
  refine ⟨rfl, ?_, ?_, ?_⟩
  · intro fields h
    have h2 : pyGet fields ['t', 'o', 'x', 'i', 'c', 'i', 't', 'y'] =
        some (Json.bool true) := h
    simp [extract_numeric_score, keyLoopNum, h2, jsonNumVal]
  · intro th h
    simpa [extract_numeric_score, consumerFlagged] using h
  · intro sig payload spec th b hsf hext
    simp [normalize_databricks_output, hsf, hext]

/-- C8 counterexample: for the payload with label `ok` and score `0.9`,
an extraction spec with positive class `toxic` and threshold `0.7`, the
label does not match the positive class, a numeric score `0.9` at or
above the threshold was derived, and yet `flagged` is false — refuting
the claim's `else, if a numeric score was derived, flagged equals
(score >= threshold)`. -/
theorem c8_label_priority_counterexample :
    (normalize_databricks_output (fun q => q)
      (Json.obj [("label".toList, Json.str "ok".toList),
                 ("score".toList, Json.num (9/10))])
      ⟨"probability_0_1".toList, [], [], "toxic".toList⟩ (7/10)).flagged = false ∧
    (normalize_databricks_output (fun q => q)
      (Json.obj [("label".toList, Json.str "ok".toList),
                 ("score".toList, Json.num (9/10))])
      ⟨"probability_0_1".toList, [], [], "toxic".toList⟩ (7/10)).label =
      some "ok".toList ∧
    pyLower "ok".toList ≠ pyLower (pyStrip "toxic".toList) ∧
    (normalize_databricks_output (fun q => q)
      (Json.obj [("label".toList, Json.str "ok".toList),
                 ("score".toList, Json.num (9/10))])
      ⟨"probability_0_1".toList, [], [], "toxic".toList⟩ (7/10)).score =
      some (9/10) ∧
    (7/10 : ℚ) ≤ 9/10 := by
  refine ⟨by decide, ?_, by decide, ?_, by norm_num⟩
  · simp +decide [normalize_databricks_output, find_first_label, keyLoopLabel,
      pyGet, List.find?]
  · simp +decide [normalize_databricks_output, find_first_numeric, keyLoopNum,
      pyGet, jsonNumVal, List.find?, clamp01]
    norm_num

/-- C8 amended: when a label was extracted and a positive class is
configured, `flagged` is exactly whether the label matches the positive
class case-insensitively, regardless of any derived score; otherwise
`flagged` is `score >= threshold` when a score was derived, and false
when not. -/
theorem c8_amended_flag_rule (sig : ℚ → ℚ) (payload : Json)
    (spec : OutputSpec) (th : ℚ) :
    (∀ l, (normalize_databricks_output sig payload spec th).label = some l →
      (pyStrip spec.positiveClass).isEmpty = false →
      (normalize_databricks_output sig payload spec th).flagged =
        decide (pyLower l = pyLower (pyStrip spec.positiveClass))) ∧
    (∀ l, (normalize_databricks_output sig payload spec th).label = some l →
      (pyStrip spec.positiveClass).isEmpty = true →
      (normalize_databricks_output sig payload spec th).flagged =
        consumerFlagged (normalize_databricks_output sig payload spec th).score th) ∧
    ((normalize_databricks_output sig payload spec th).label = none →
      (normalize_databricks_output sig payload spec th).flagged =
        consumerFlagged (normalize_databricks_output sig payload spec th).score th) := by
  unfold normalize_databricks_output
  refine ⟨?_, ?_, ?_⟩ <;> intro h <;> simp_all

/-- C8 witness: at the counterexample input the amended rule applies with
label `ok` and positive class `toxic`, and evaluates to not flagged. -/
theorem c8_witness :
    (normalize_databricks_output (fun q => q)
      (Json.obj [("label".toList, Json.str "ok".toList),
                 ("score".toList, Json.num (9/10))])
      ⟨"probability_0_1".toList, [], [], "toxic".toList⟩ (7/10)).flagged =
      decide (pyLower "ok".toList = pyLower (pyStrip "toxic".toList)) := by
  exact (c8_amended_flag_rule (fun q => q)
    (Json.obj [("label".toList, Json.str "ok".toList),
               ("score".toList, Json.num (9/10))])
    ⟨"probability_0_1".toList, [], [], "toxic".toList⟩ (7/10)).1
    "ok".toList
    (by simp +decide [normalize_databricks_output, find_first_label,
      keyLoopLabel, pyGet, List.find?])
    (by decide)

/-- C5 counterexample: the input `don` + apostrophe + `t` normalizes to
`don t` with index map `[0, 1, 2, 4, 4]` — the apostrophe is dropped and
collapses to a separator space, and no apostrophe occurs in the output,
refuting the claim that the apostrophe is kept. -/
theorem c5_apostrophe_counterexample :
    normalize_text ['d', 'o', 'n', Char.ofNat 39, 't'] =
      ("don t".toList, [0, 1, 2, 4, 4]) ∧
    Char.ofNat 39 ∉ "don t".toList := by
  refine ⟨by decide, by decide⟩

/-- C7 counterexample: swapping two adjacent characters (`ab` against
`ba`) has Damerau/Levenshtein distance one when transpositions count as
one edit, yet `_edit_distance_at_most_one` returns false. -/
theorem c7_transposition_counterexample :
    edit_distance_at_most_one "ab".toList "ba".toList = false ∧
    dlev "ab".toList "ba".toList = 1 := by
  refine ⟨by decide, by decide⟩

/-- C1 counterexample: with the lexicon containing the phrase
`useless trash` (severity 3) and the word `useless` (severity 2), the
text `useless trash` yields two accepted matches whose spans `[0, 7)` and
`[0, 13)` overlap — the phrase match does not exclude the overlapping
word match, refuting the no-overlap claim. -/
theorem c1_overlapping_matches_counterexample :
    (classify_text [⟨"useless trash".toList, 3⟩, ⟨"useless".toList, 2⟩]
      "useless trash".toList).matchList =
      [⟨"useless".toList, 0, 7, 2⟩, ⟨"useless trash".toList, 0, 13, 3⟩] ∧
    (0 : Nat) < 13 ∧ (0 : Nat) < 7 ∧
    MatchRec.mk "useless".toList 0 7 2 ≠ MatchRec.mk "useless trash".toList 0 13 3 := by
  refine ⟨by decide, by decide, by decide, by decide⟩

/-- Alphanumeric characters are not whitespace (ASCII ranges are
disjoint). -/
lemma pyIsAlnum_not_space {c : Char} (h : pyIsAlnum c = true) :
    pyIsSpace c = false := by
  simp [pyIsAlnum] at h
  simp [pyIsSpace]
  omega

/-- Dropping the spaces from the output of the `normalize_text` loop
leaves exactly the lowercased alphanumeric characters of the input, for
every initial loop state. -/
lemma normCore_filter (s : List Char) :
    ∀ idx p w, ((normCore s idx p w).1.filter (fun c => ! pyIsSpace c)) =
      (s.filter (fun c => pyIsAlnum (pyToLower c))).map pyToLower := by
  induction s with
  | nil => intro idx p w; rfl
  | cons ch rest ih =>
    intro idx p w
    by_cases h : pyIsAlnum (pyToLower ch)
    · by_cases hpw : p ∧ w
      · simp [normCore, h, hpw, List.filter, pyIsAlnum_not_space h, ih,
          show pyIsSpace (Char.ofNat 32) = true from by decide]
      · simp [normCore, h, hpw, List.filter, pyIsAlnum_not_space h, ih]
    · by_cases h2 : pyIsSpace (pyToLower ch) || nonAlnumMatch (pyToLower ch)
      · simp [normCore, h, h2, List.filter, ih]
      · simp [normCore, h, h2, List.filter, ih]

/-- Filtering commutes with dropping a prefix of elements the filter
rejects anyway. -/
lemma filter_dropWhile {p q : Char → Bool} (hpq : ∀ c, q c = true → p c = false)
    (l : List Char) : List.filter p (List.dropWhile q l) = List.filter p l := by
  induction l with
  | nil => rfl
  | cons c rest ih =>
    by_cases h : q c
    · simp [List.dropWhile, h, List.filter, hpq c h, ih]
    · simp [List.dropWhile, h]

/-- Stripping leading and trailing whitespace does not change the
non-whitespace characters. -/
lemma filter_pyStrip (l : List Char) :
    List.filter (fun c => ! pyIsSpace c) (pyStrip l) =
      List.filter (fun c => ! pyIsSpace c) l := by
  have hpq : ∀ c, pyIsSpace c = true → (! pyIsSpace c) = false := by
    intro c h; simp [h]
  unfold pyStrip
  rw [List.filter_reverse, filter_dropWhile hpq, List.filter_reverse,
    List.reverse_reverse, filter_dropWhile hpq]

/-- C5 amended: a character of the input is kept (lowercased) in the
output of `normalize_text` exactly when its lowercase is alphanumeric —
dropping the separator spaces from the output yields precisely the
lowercased alphanumeric characters of the input, in order.  Apostrophes
are not alphanumeric, so they are never kept. -/
theorem c5_amended_kept_chars (s : List Char) :
    ((normalize_text s).1.filter (fun c => ! pyIsSpace c)) =
      (s.filter (fun c => pyIsAlnum (pyToLower c))).map pyToLower := by
  unfold normalize_text
  have key := filter_pyStrip (normCore s 0 false false).1
  rw [normCore_filter s 0 false false] at key
  by_cases h : (pyStrip (normCore s 0 false false).1).isEmpty
  · simp only [h]
    rw [List.isEmpty_iff] at h
    rw [h] at key
    simpa using key.symm
  · simp only [h]
    simpa using key

/-- C10 witness: the boolean payload flags at threshold one, and the
normalizer given the explicit score field `a` over the payload whose `a`
key is `true` yields no score. -/
theorem c10_witness :
    consumerFlagged (extract_numeric_score (Json.bool true)) 1 = true ∧
    (normalize_databricks_output (fun q => q)
      (Json.obj [("a".toList, Json.bool true)])
      ⟨"probability_0_1".toList, "a".toList, [], []⟩ (7/10)).score = none := by
  refine ⟨c10_bool_score_handling.2.2.1 1 le_rfl, ?_⟩
  exact c10_bool_score_handling.2.2.2 (fun q => q)
    (Json.obj [("a".toList, Json.bool true)])
    ⟨"probability_0_1".toList, "a".toList, [], []⟩ (7/10) true (by decide) rfl


lemma insertSorted_perm (x : MatchRec) (l : List MatchRec) :
    (insertSorted x l).Perm (x :: l) := by
  induction l with
  | nil => exact List.Perm.refl _
  | cons y ys ih =>
    by_cases h : y.start < x.start ∨ (y.start = x.start ∧ y.stop < x.stop)
    · simp only [insertSorted, h, if_true]
      exact (ih.cons y).trans (List.Perm.swap x y ys)
    · simp only [insertSorted, h, if_false]
      exact List.Perm.refl _

lemma sortMatches_perm (l : List MatchRec) : (sortMatches l).Perm l := by
  induction l with
  | nil => exact List.Perm.refl _
  | cons x xs ih =>
    exact (insertSorted_perm x (sortMatches xs)).trans (ih.cons x)

lemma collectExactForTerm_spec (idxMap : List Nat) (item : FlagTerm) :
    ∀ hits seen,
      (∀ k ∈ seen, k ∈ (collectExactForTerm idxMap item hits seen).2) ∧
      ((collectExactForTerm idxMap item hits seen).1.map matchKey).Nodup ∧
      (∀ m ∈ (collectExactForTerm idxMap item hits seen).1,
        matchKey m ∈ (collectExactForTerm idxMap item hits seen).2 ∧
        matchKey m ∉ seen) := by
  intro hits
  induction hits with
  | nil =>
    intro seen
    refine ⟨fun k hk => hk, ?_, ?_⟩
    · simp [collectExactForTerm]
    · intro m hm
      simp [collectExactForTerm] at hm
  | cons hit rest ih =>
    intro seen
    obtain ⟨sn, en⟩ := hit
    by_cases h1 : idxMap.length ≤ sn ∨ (idxMap.length : Int) ≤ (en : Int) - 1
    · simp only [collectExactForTerm, if_pos h1]
      exact ih seen
    · simp only [collectExactForTerm, h1, if_false]
      set key : Nat × Nat × List Char :=
        (idxMap.getD sn 0, pyIndex idxMap ((en : Int) - 1) + 1, item.term) with hkey
      by_cases h2 : key ∈ seen
      · simp only [if_pos h2]
        exact ih seen
      · simp only [h2, if_false]
        obtain ⟨mono, nodup, mem⟩ := ih (key :: seen)
        refine ⟨?_, ?_, ?_⟩
        · intro k hk
          exact mono k (List.mem_cons_of_mem _ hk)
        · simp only [List.map_cons, List.nodup_cons]
          refine ⟨?_, nodup⟩
          intro hcon
          obtain ⟨m, hm, hkeq⟩ := List.mem_map.mp hcon
          have := (mem m hm).2
          rw [hkeq] at this
          exact this (List.mem_cons_self _ _)
        · intro m hm
          rcases List.mem_cons.mp hm with heq | hmem
          · subst heq
            exact ⟨mono _ (List.mem_cons_self _ _), h2⟩
          · obtain ⟨hin, hnot⟩ := mem m hmem
            exact ⟨hin, fun hc => hnot (List.mem_cons_of_mem _ hc)⟩

lemma collectFuzzyWords_spec (normText : List Char) (idxMap : List Nat)
    (item : FlagTerm) :
    ∀ ws seen,
      (∀ k ∈ seen, k ∈ (collectFuzzyWords normText idxMap item ws seen).2) ∧
      ((collectFuzzyWords normText idxMap item ws seen).1.map matchKey).Nodup ∧
      (∀ m ∈ (collectFuzzyWords normText idxMap item ws seen).1,
        matchKey m ∈ (collectFuzzyWords normText idxMap item ws seen).2 ∧
        matchKey m ∉ seen) := by
  intro ws
  induction ws with
  | nil =>
    intro seen
    refine ⟨fun k hk => hk, ?_, ?_⟩
    · simp [collectFuzzyWords]
    · intro m hm
      simp [collectFuzzyWords] at hm
  | cons w rest ih =>
    intro seen
    obtain ⟨sn, en⟩ := w
    by_cases h0 : ¬ edit_distance_at_most_one ((normText.drop sn).take (en - sn)) item.term
    · simp only [collectFuzzyWords, if_pos h0]
      exact ih seen
    · by_cases h1 : idxMap.length ≤ sn ∨ (idxMap.length : Int) ≤ (en : Int) - 1
      · simp only [collectFuzzyWords, if_neg h0, if_pos h1]
        exact ih seen
      · simp only [collectFuzzyWords, if_neg h0, if_neg h1]
        set key : Nat × Nat × List Char :=
          (idxMap.getD sn 0, pyIndex idxMap ((en : Int) - 1) + 1, item.term) with hkey
        by_cases h2 : key ∈ seen
        · simp only [if_pos h2]
          exact ih seen
        · simp only [h2, if_false]
          obtain ⟨mono, nodup, mem⟩ := ih (key :: seen)
          refine ⟨?_, ?_, ?_⟩
          · intro k hk
            exact mono k (List.mem_cons_of_mem _ hk)
          · simp only [List.map_cons, List.nodup_cons]
            refine ⟨?_, nodup⟩
            intro hcon
            obtain ⟨m, hm, hkeq⟩ := List.mem_map.mp hcon
            have := (mem m hm).2
            rw [hkeq] at this
            exact this (List.mem_cons_self _ _)
          · intro m hm
            rcases List.mem_cons.mp hm with heq | hmem
            · subst heq
              exact ⟨mono _ (List.mem_cons_self _ _), h2⟩
            · obtain ⟨hin, hnot⟩ := mem m hmem
              exact ⟨hin, fun hc => hnot (List.mem_cons_of_mem _ hc)⟩

lemma collectExactGo_spec (normText : List Char) (idxMap : List Nat) :
    ∀ terms seen,
      (∀ k ∈ seen, k ∈ (collectExactGo normText idxMap terms seen).2) ∧
      ((collectExactGo normText idxMap terms seen).1.map matchKey).Nodup ∧
      (∀ m ∈ (collectExactGo normText idxMap terms seen).1,
        matchKey m ∈ (collectExactGo normText idxMap terms seen).2 ∧
        matchKey m ∉ seen) := by
  intro terms
  induction terms with
  | nil =>
    intro seen
    refine ⟨fun k hk => hk, ?_, ?_⟩
    · simp [collectExactGo]
    · intro m hm
      simp [collectExactGo] at hm
  | cons item rest ih =>
    intro seen
    obtain ⟨monoF, nodupF, memF⟩ :=
      collectExactForTerm_spec idxMap item (findIter item.term normText) seen
    obtain ⟨monoG, nodupG, memG⟩ :=
      ih (collectExactForTerm idxMap item (findIter item.term normText) seen).2
    simp only [collectExactGo]
    refine ⟨?_, ?_, ?_⟩
    · intro k hk
      exact monoG k (monoF k hk)
    · rw [List.map_append, List.nodup_append]
      refine ⟨nodupF, nodupG, ?_⟩
      intro a haF haG
      obtain ⟨m, hm, hkm⟩ := List.mem_map.mp haF
      obtain ⟨m2, hm2, hkm2⟩ := List.mem_map.mp haG
      exact ((memG m2 hm2).2) (hkm2 ▸ hkm ▸ (memF m hm).1)
    · intro m hm
      rcases List.mem_append.mp hm with hmem | hmem
      · exact ⟨monoG _ (memF m hmem).1, (memF m hmem).2⟩
      · exact ⟨(memG m hmem).1, fun hc => (memG m hmem).2 (monoF _ hc)⟩

lemma collectFuzzyGo_spec (normText : List Char) (idxMap : List Nat)
    (words : List (Nat × Nat)) :
    ∀ items seen,
      (∀ k ∈ seen, k ∈ (collectFuzzyGo normText idxMap words items seen).2) ∧
      ((collectFuzzyGo normText idxMap words items seen).1.map matchKey).Nodup ∧
      (∀ m ∈ (collectFuzzyGo normText idxMap words items seen).1,
        matchKey m ∈ (collectFuzzyGo normText idxMap words items seen).2 ∧
        matchKey m ∉ seen) := by
  intro items
  induction items with
  | nil =>
    intro seen
    refine ⟨fun k hk => hk, ?_, ?_⟩
    · simp [collectFuzzyGo]
    · intro m hm
      simp [collectFuzzyGo] at hm
  | cons item rest ih =>
    intro seen
    by_cases h0 : item.term.length < 5
    · simp only [collectFuzzyGo, if_pos h0]
      exact ih seen
    · by_cases h1 : searchFound item.term normText
      · simp only [collectFuzzyGo, if_neg h0, if_pos h1]
        exact ih seen
      · simp only [collectFuzzyGo, if_neg h0, if_neg h1]
        obtain ⟨monoF, nodupF, memF⟩ :=
          collectFuzzyWords_spec normText idxMap item words seen
        obtain ⟨monoG, nodupG, memG⟩ :=
          ih (collectFuzzyWords normText idxMap item words seen).2
        refine ⟨?_, ?_, ?_⟩
        · intro k hk
          exact monoG k (monoF k hk)
        · rw [List.map_append, List.nodup_append]
          refine ⟨nodupF, nodupG, ?_⟩
          intro a haF haG
          obtain ⟨m, hm, hkm⟩ := List.mem_map.mp haF
          obtain ⟨m2, hm2, hkm2⟩ := List.mem_map.mp haG
          exact ((memG m2 hm2).2) (hkm2 ▸ hkm ▸ (memF m hm).1)
        · intro m hm
          rcases List.mem_append.mp hm with hmem | hmem
          · exact ⟨monoG _ (memF m hmem).1, (memF m hmem).2⟩
          · exact ⟨(memG m hmem).1, fun hc => (memG m hmem).2 (monoF _ hc)⟩

/-- C1 amended: no two distinct matches returned by `classify_text` share
the same `(start, end, term)` triple — the `seen` set deduplicates exact
keys across the exact and fuzzy collectors, and the final stable sort
only permutes the list.  (Overlap between matches with different keys is
allowed; the counterexample exhibits one.) -/
theorem c1_amended_match_keys_nodup (terms : List FlagTerm) (text : List Char) :
    ((classify_text terms text).matchList.map matchKey).Nodup := by
  unfold classify_text
  by_cases h : (pyStrip text).isEmpty
  · simp [h]
  · simp only [h, Bool.false_eq_true, if_false]
    have hperm := (sortMatches_perm
      ((collect_exact_matches terms (normalize_text (pyStrip text)).1
          (normalize_text (pyStrip text)).2).1 ++
        collect_fuzzy_matches terms (normalize_text (pyStrip text)).1
          (normalize_text (pyStrip text)).2
          (collect_exact_matches terms (normalize_text (pyStrip text)).1
            (normalize_text (pyStrip text)).2).2)).map matchKey
    rw [hperm.nodup_iff]
    rw [List.map_append, List.nodup_append]
    obtain ⟨monoE, nodupE, memE⟩ :=
      collectExactGo_spec (normalize_text (pyStrip text)).1
        (normalize_text (pyStrip text)).2 terms []
    refine ⟨nodupE, ?_, ?_⟩
    · unfold collect_fuzzy_matches
      by_cases hni : (normalize_text (pyStrip text)).1.isEmpty
      · simp [hni]
      · simp only [hni, Bool.false_eq_true, if_false]
        exact (collectFuzzyGo_spec (normalize_text (pyStrip text)).1
          (normalize_text (pyStrip text)).2
          (wordIter (normalize_text (pyStrip text)).1)
          (highSeveritySingleWordTerms terms)
          (collect_exact_matches terms (normalize_text (pyStrip text)).1
            (normalize_text (pyStrip text)).2).2).2.1
    · intro a haE haF
      obtain ⟨m, hm, hkm⟩ := List.mem_map.mp haE
      have hinE : a ∈ (collect_exact_matches terms (normalize_text (pyStrip text)).1
          (normalize_text (pyStrip text)).2).2 := hkm ▸ (memE m hm).1
      unfold collect_fuzzy_matches at haF
      by_cases hni : (normalize_text (pyStrip text)).1.isEmpty
      · simp [hni] at haF
      · simp only [hni, Bool.false_eq_true, if_false] at haF
        obtain ⟨m2, hm2, hkm2⟩ := List.mem_map.mp haF
        exact ((collectFuzzyGo_spec (normalize_text (pyStrip text)).1
          (normalize_text (pyStrip text)).2
          (wordIter (normalize_text (pyStrip text)).1)
          (highSeveritySingleWordTerms terms)
          (collect_exact_matches terms (normalize_text (pyStrip text)).1
            (normalize_text (pyStrip text)).2).2).2.2 m2 hm2).2 (hkm2 ▸ hinE)



lemma collectFuzzyWords_mem (normText : List Char) (idxMap : List Nat)
    (item : FlagTerm) :
    ∀ ws seen m, m ∈ (collectFuzzyWords normText idxMap item ws seen).1 →
      m.term = item.term ∧ m.severity = item.severity ∧
      ∃ sn en, (sn, en) ∈ ws ∧
        edit_distance_at_most_one ((normText.drop sn).take (en - sn)) item.term = true ∧
        m.start = idxMap.getD sn 0 ∧
        m.stop = pyIndex idxMap ((en : Int) - 1) + 1 := by
  intro ws
  induction ws with
  | nil =>
    intro seen m hm
    simp [collectFuzzyWords] at hm
  | cons w rest ih =>
    intro seen m hm
    obtain ⟨sn, en⟩ := w
    by_cases h0 : edit_distance_at_most_one ((normText.drop sn).take (en - sn)) item.term = true
    · by_cases h1 : idxMap.length ≤ sn ∨ (idxMap.length : Int) ≤ (en : Int) - 1
      · rw [collectFuzzyWords, if_neg (by simp [h0]), if_pos h1] at hm
        obtain ⟨ht, hs, sn2, en2, hmem, rest2⟩ := ih seen m hm
        exact ⟨ht, hs, sn2, en2, List.mem_cons_of_mem _ hmem, rest2⟩
      · rw [collectFuzzyWords, if_neg (by simp [h0]), if_neg h1] at hm
        by_cases h2 : (idxMap.getD sn 0, pyIndex idxMap ((en : Int) - 1) + 1, item.term) ∈ seen
        · rw [if_pos h2] at hm
          obtain ⟨ht, hs, sn2, en2, hmem, rest2⟩ := ih seen m hm
          exact ⟨ht, hs, sn2, en2, List.mem_cons_of_mem _ hmem, rest2⟩
        · rw [if_neg h2] at hm
          rcases List.mem_cons.mp hm with heq | hmem
          · subst heq
            exact ⟨rfl, rfl, sn, en, List.mem_cons_self _ _, h0, rfl, rfl⟩
          · obtain ⟨ht, hs, sn2, en2, hmem2, rest2⟩ := ih _ m hmem
            exact ⟨ht, hs, sn2, en2, List.mem_cons_of_mem _ hmem2, rest2⟩
    · rw [collectFuzzyWords, if_pos (by simp [h0])] at hm
      obtain ⟨ht, hs, sn2, en2, hmem, rest2⟩ := ih seen m hm
      exact ⟨ht, hs, sn2, en2, List.mem_cons_of_mem _ hmem, rest2⟩

lemma collectFuzzyGo_mem (normText : List Char) (idxMap : List Nat)
    (words : List (Nat × Nat)) :
    ∀ items seen m, m ∈ (collectFuzzyGo normText idxMap words items seen).1 →
      ∃ item, item ∈ items ∧ 5 ≤ item.term.length ∧
        searchFound item.term normText = false ∧
        m.term = item.term ∧ m.severity = item.severity ∧
        ∃ sn en, (sn, en) ∈ words ∧
          edit_distance_at_most_one ((normText.drop sn).take (en - sn)) item.term = true ∧
          m.start = idxMap.getD sn 0 ∧
          m.stop = pyIndex idxMap ((en : Int) - 1) + 1 := by
  intro items
  induction items with
  | nil =>
    intro seen m hm
    simp [collectFuzzyGo] at hm
  | cons item rest ih =>
    intro seen m hm
    by_cases h0 : item.term.length < 5
    · rw [collectFuzzyGo, if_pos h0] at hm
      obtain ⟨it, hit, hrest⟩ := ih seen m hm
      exact ⟨it, List.mem_cons_of_mem _ hit, hrest⟩
    · by_cases h1 : searchFound item.term normText
      · rw [collectFuzzyGo, if_neg h0, if_pos h1] at hm
        obtain ⟨it, hit, hrest⟩ := ih seen m hm
        exact ⟨it, List.mem_cons_of_mem _ hit, hrest⟩
      · rw [collectFuzzyGo, if_neg h0, if_neg h1] at hm
        rcases List.mem_append.mp hm with hmem | hmem
        · obtain ⟨ht, hs, hex⟩ := collectFuzzyWords_mem normText idxMap item words seen m hmem
          exact ⟨item, List.mem_cons_self _ _, by omega,
            Bool.eq_false_iff.mpr h1, ht, hs, hex⟩
        · obtain ⟨it, hit, hrest⟩ := ih _ m hmem
          exact ⟨it, List.mem_cons_of_mem _ hit, hrest⟩

lemma matchAtB_false_of_big (t s : List Char) (p : Nat)
    (ht : t ≠ []) (hp : s.length ≤ p) : matchAtB t s p = false := by
  have hdrop : s.drop p = [] := List.drop_eq_nil_of_le hp
  simp only [matchAtB, hdrop, List.take_nil]
  have : pyLower [] ≠ pyLower t := by
    intro hc
    apply ht
    have := congrArg List.length hc
    simp [pyLower] at this
    exact List.eq_nil_of_length_eq_zero this.symm
  simp [this]

lemma searchFound_false_iff (t s : List Char) (ht : t ≠ [])
    (h : searchFound t s = false) : ∀ p, matchAtB t s p = false := by
  intro p
  by_cases hp : p < s.length + 1
  · unfold searchFound at h
    rw [List.any_eq_false] at h
    exact Bool.eq_false_iff.mpr (h p (List.mem_range.mpr hp))
  · exact matchAtB_false_of_big t s p ht (by omega)


lemma wordIterAux_spec (orig : List Char) :
    ∀ rest idx run, rest = orig.drop idx → idx ≤ orig.length →
    runInv orig idx run →
    ∀ sn en, (sn, en) ∈ wordIterAux rest idx run → tokenSpec orig sn en := by
  intro rest
  induction rest with
  | nil =>
    intro idx run hrest hle hinv sn en hmem
    have hidx : idx = orig.length := by
      have := List.drop_eq_nil_iff.mp hrest.symm
      omega
    cases run with
    | none => simp [wordIterAux] at hmem
    | some r =>
      obtain ⟨s0, e0⟩ := r
      simp only [wordIterAux, List.mem_singleton] at hmem
      obtain ⟨he, hs⟩ := Prod.mk.injEq _ _ _ _ ▸ hmem
      obtain ⟨hinv1, hinv2, hinv3, hinv4⟩ := hinv
      subst he hs
      exact ⟨hinv2, by omega, hinv3, hinv4, Or.inl (by omega)⟩
  | cons c rest2 ih =>
    intro idx run hrest hle hinv sn en hmem
    have hidxlt : idx < orig.length := by
      by_contra hc
      have : orig.drop idx = [] := List.drop_eq_nil_of_le (by omega)
      rw [this] at hrest
      exact List.cons_ne_nil c rest2 hrest
    have h0 : orig[idx]? = some c := by
      have hd := List.getElem?_drop orig idx 0
      rw [← hrest] at hd
      simpa using hd.symm
    have hgetc : orig.getD idx (Char.ofNat 32) = c := by
      simp [List.getD, h0]
    have hrest2 : rest2 = orig.drop (idx + 1) := by
      have h1 : List.drop 1 (orig.drop idx) = List.drop (idx + 1) orig :=
        List.drop_drop 1 idx orig
      rw [← hrest] at h1
      simpa using h1
    by_cases hw : isWordChar c
    · cases run with
      | none =>
        rw [wordIterAux, if_pos hw] at hmem
        refine ih (idx + 1) (some (idx, idx + 1)) hrest2 (by omega) ?_ sn en hmem
        refine ⟨rfl, by omega, ?_, ?_⟩
        · intro i hi1 hi2
          have : i = idx := by omega
          rw [this, hgetc]
          exact hw
        · exact hinv
      | some r =>
        obtain ⟨s0, e0⟩ := r
        rw [wordIterAux, if_pos hw] at hmem
        obtain ⟨hinv1, hinv2, hinv3, hinv4⟩ := hinv
        refine ih (idx + 1) (some (s0, e0 + 1)) hrest2 (by omega) ?_ sn en hmem
        refine ⟨by omega, by omega, ?_, hinv4⟩
        intro i hi1 hi2
        by_cases hie : i < e0
        · exact hinv3 i hi1 hie
        · have : i = idx := by omega
          rw [this, hgetc]
          exact hw
    · cases run with
      | none =>
        rw [wordIterAux, if_neg hw] at hmem
        have hcfalse : isWordChar (orig.getD idx (Char.ofNat 32)) = false := by
          rw [hgetc]; exact Bool.eq_false_iff.mpr hw
        refine ih (idx + 1) none hrest2 (by omega) ?_ sn en hmem
        right
        simpa using hcfalse
      | some r =>
        obtain ⟨s0, e0⟩ := r
        rw [wordIterAux, if_neg hw] at hmem
        obtain ⟨hinv1, hinv2, hinv3, hinv4⟩ := hinv
        have hcfalse : isWordChar (orig.getD idx (Char.ofNat 32)) = false := by
          rw [hgetc]; exact Bool.eq_false_iff.mpr hw
        rcases List.mem_cons.mp hmem with heq | hmem2
        · obtain ⟨he, hs⟩ := Prod.mk.injEq _ _ _ _ ▸ heq
          subst he hs
          refine ⟨hinv2, by omega, hinv3, hinv4, Or.inr ?_⟩
          rw [hinv1]
          exact hcfalse
        · refine ih (idx + 1) none hrest2 (by omega) ?_ sn en hmem2
          right
          simpa using hcfalse

lemma wordIter_spec (s : List Char) :
    ∀ sn en, (sn, en) ∈ wordIter s → tokenSpec s sn en := by
  intro sn en hmem
  exact wordIterAux_spec s s 0 none (by simp) (by omega) (Or.inl rfl) sn en hmem



/-- C6: a fuzzy match is produced only for a lexicon term that contains
no space, has severity at least three, has length at least five, and has
no exact word-boundary match anywhere in the normalized text; the
candidate the term was matched against is a token of `_WORD_RE`, and
those tokens are exactly the maximal word-character runs of the
normalized text (non-empty, in bounds, all word characters, extendable on
neither side). -/
theorem c6_fuzzy_gating :
    (∀ (terms : List FlagTerm) (normText : List Char) (idxMap : List Nat)
        (seen : List (Nat × Nat × List Char)) (m : MatchRec),
      m ∈ collect_fuzzy_matches terms normText idxMap seen →
      ∃ item, item ∈ terms ∧ m.term = item.term ∧
        Char.ofNat 32 ∉ item.term ∧ 3 ≤ item.severity ∧
        5 ≤ item.term.length ∧
        (∀ p, matchAtB item.term normText p = false) ∧
        ∃ sn en, (sn, en) ∈ wordIter normText ∧
          edit_distance_at_most_one ((normText.drop sn).take (en - sn))
            item.term = true) ∧
    (∀ (s : List Char) (sn en : Nat), (sn, en) ∈ wordIter s →
      tokenSpec s sn en) := by
  constructor
  · intro terms normText idxMap seen m hm
    unfold collect_fuzzy_matches at hm
    by_cases hni : normText.isEmpty
    · simp [hni] at hm
    · simp only [hni, Bool.false_eq_true, if_false] at hm
      obtain ⟨item, hitem, hlen, hsearch, ht, hs, sn, en, hw, hed, _, _⟩ :=
        collectFuzzyGo_mem normText idxMap (wordIter normText)
          (highSeveritySingleWordTerms terms) seen m hm
      obtain ⟨hmem, hcond⟩ := List.mem_filter.mp hitem
      obtain ⟨hspace, hsev⟩ := of_decide_eq_true hcond
      have htne : item.term ≠ [] := by
        intro hc
        rw [hc] at hlen
        simp at hlen
      exact ⟨item, hmem, ht, hspace, hsev, hlen,
        searchFound_false_iff item.term normText htne hsearch,
        sn, en, hw, hed⟩
  · exact fun s sn en hm => wordIter_spec s sn en hm

/-- C6 witness: the lexicon term `useless` (severity 3, length 7, no
space, no exact match in `uselss here`) fuzzy-matches the token
`uselss`, and the span `(0, 6)` is a maximal word run of that text. -/
theorem c6_witness :
    (∃ item, item ∈ [(⟨"useless".toList, 3⟩ : FlagTerm)] ∧
      (MatchRec.mk "useless".toList 0 6 3).term = item.term ∧
      Char.ofNat 32 ∉ item.term ∧ 3 ≤ item.severity ∧
      5 ≤ item.term.length ∧
      (∀ p, matchAtB item.term "uselss here".toList p = false) ∧
      ∃ sn en, (sn, en) ∈ wordIter "uselss here".toList ∧
        edit_distance_at_most_one (("uselss here".toList.drop sn).take (en - sn))
          item.term = true) ∧
    tokenSpec "uselss here".toList 0 6 := by
  constructor
  · exact c6_fuzzy_gating.1 [⟨"useless".toList, 3⟩] "uselss here".toList
      (List.range 11) [] ⟨"useless".toList, 0, 6, 3⟩ (by decide)
  · exact c6_fuzzy_gating.2 "uselss here".toList 0 6 (by decide)


lemma lev_nil_left (r : List Char) : lev [] r = r.length := by
  cases r <;> simp [lev]

lemma lev_nil_right (l : List Char) : lev l [] = l.length := by
  cases l <;> simp [lev]

lemma lev_cons_cons (x y : Char) (xs ys : List Char) :
    lev (x :: xs) (y :: ys) =
      if x = y then lev xs ys
      else 1 + min (min (lev xs (y :: ys)) (lev (x :: xs) ys)) (lev xs ys) := by
  simp [lev]

lemma lev_self (l : List Char) : lev l l = 0 := by
  induction l with
  | nil => simp [lev]
  | cons x xs ih => simp [lev_cons_cons, ih]

lemma lev_eq_zero {l r : List Char} (h : lev l r = 0) : l = r := by
  induction l generalizing r with
  | nil =>
    cases r with
    | nil => rfl
    | cons y ys => simp [lev_nil_left] at h
  | cons x xs ih =>
    cases r with
    | nil => simp [lev_nil_right] at h
    | cons y ys =>
      by_cases hxy : x = y
      · rw [lev_cons_cons, if_pos hxy] at h
        rw [hxy, ih h]
      · rw [lev_cons_cons, if_neg hxy] at h
        omega

lemma lev_length (l : List Char) :
    ∀ r, l.length ≤ r.length + lev l r ∧ r.length ≤ l.length + lev l r := by
  induction l with
  | nil => intro r; simp [lev_nil_left]
  | cons x xs ih =>
    intro r
    induction r with
    | nil => simp [lev_nil_right]
    | cons y ys ihr =>
      by_cases hxy : x = y
      · have := ih ys
        rw [lev_cons_cons, if_pos hxy]
        simp only [List.length_cons]
        omega
      · have h1 := ih (y :: ys)
        have h3 := ih ys
        rw [lev_cons_cons, if_neg hxy]
        simp only [List.length_cons] at *
        omega

lemma lev_comm (l : List Char) : ∀ r, lev l r = lev r l := by
  induction l with
  | nil => intro r; simp [lev_nil_left, lev_nil_right]
  | cons x xs ih =>
    intro r
    induction r with
    | nil => simp [lev_nil_left, lev_nil_right]
    | cons y ys ihr =>
      by_cases hxy : x = y
      · rw [lev_cons_cons, if_pos hxy, lev_cons_cons, if_pos hxy.symm]
        exact ih ys
      · rw [lev_cons_cons, if_neg hxy,
          lev_cons_cons, if_neg (fun hc => hxy hc.symm)]
        rw [ih (y :: ys), ih ys, ihr]
        omega

lemma countMismatch_self (l : List Char) : countMismatch l l = 0 := by
  induction l with
  | nil => rfl
  | cons x xs ih => simp [countMismatch, ih]

lemma countMismatch_eq_zero {l : List Char} :
    ∀ {r}, l.length = r.length → countMismatch l r = 0 → l = r := by
  induction l with
  | nil =>
    intro r hlen h
    cases r with
    | nil => rfl
    | cons y ys => simp at hlen
  | cons x xs ih =>
    intro r hlen h
    cases r with
    | nil => simp at hlen
    | cons y ys =>
      simp only [List.length_cons] at hlen
      by_cases hxy : x = y
      · rw [countMismatch, if_pos hxy] at h
        rw [hxy, @ih ys (by omega) (by omega)]
      · rw [countMismatch, if_neg hxy] at h
        omega

lemma lev_le_one_iff_mismatch {l : List Char} :
    ∀ {r}, l.length = r.length → (lev l r ≤ 1 ↔ countMismatch l r ≤ 1) := by
  induction l with
  | nil =>
    intro r hlen
    cases r with
    | nil => simp [lev_nil_left, countMismatch]
    | cons y ys => simp at hlen
  | cons x xs ih =>
    intro r hlen
    cases r with
    | nil => simp at hlen
    | cons y ys =>
      simp only [List.length_cons] at hlen
      by_cases hxy : x = y
      · rw [lev_cons_cons, if_pos hxy, countMismatch, if_pos hxy]
        simpa using @ih ys (by omega)
      · rw [lev_cons_cons, if_neg hxy, countMismatch, if_neg hxy]
        have hA := lev_length xs (y :: ys)
        have hB := lev_length (x :: xs) ys
        simp only [List.length_cons] at hA hB
        constructor
        · intro h
          have hC : lev xs ys = 0 := by omega
          have := lev_eq_zero hC
          subst this
          simp [countMismatch_self]
        · intro h
          have hcm : countMismatch xs ys = 0 := by omega
          have := countMismatch_eq_zero (l := xs) (by omega) hcm
          subst this
          have := lev_self xs
          omega

lemma edLoopEq_eval {l : List Char} :
    ∀ {r} (e : Nat), l.length = r.length →
      edLoopEq l r e = decide (e + countMismatch l r ≤ 1) := by
  induction l with
  | nil =>
    intro r e hlen
    cases r with
    | nil => simp [edLoopEq, edTail, countMismatch]
    | cons y ys => simp at hlen
  | cons x xs ih =>
    intro r e hlen
    cases r with
    | nil => simp at hlen
    | cons y ys =>
      simp only [List.length_cons] at hlen
      by_cases hxy : x = y
      · rw [edLoopEq, if_pos hxy, countMismatch, if_pos hxy]
        simpa using @ih ys e (by omega)
      · rw [edLoopEq, if_neg hxy, countMismatch, if_neg hxy]
        by_cases he : e + 1 > 1
        · rw [if_pos he]
          have hnle : ¬ (e + ((1 : Nat) + countMismatch xs ys) ≤ 1) := by omega
          simp [hnle]
        · rw [if_neg he]
          rw [@ih ys (e + 1) (by omega)]
          simp only [decide_eq_decide]
          omega



lemma insertRel_cons {a : Char} {xs ys : List Char} :
    insertRel (a :: xs) (a :: ys) ↔ insertRel xs ys := by
  constructor
  · rintro ⟨p, c, s, h1, h2⟩
    cases p with
    | nil =>
      simp only [List.nil_append] at h1 h2
      subst h1
      obtain ⟨hc, hys⟩ := List.cons.injEq _ _ _ _ ▸ h2
      exact ⟨[], a, xs, rfl, by simp [hys, hc]⟩
    | cons b p2 =>
      simp only [List.cons_append] at h1 h2
      obtain ⟨hab, hxs⟩ := List.cons.injEq _ _ _ _ ▸ h1
      obtain ⟨hab2, hys⟩ := List.cons.injEq _ _ _ _ ▸ h2
      exact ⟨p2, c, s, hxs, hys⟩
  · rintro ⟨p, c, s, h1, h2⟩
    exact ⟨a :: p, c, s, by rw [h1, List.cons_append],
      by rw [h2, List.cons_append]⟩

lemma insertRel_cons_ne {x y : Char} {xs ys : List Char} (hxy : x ≠ y) :
    insertRel (x :: xs) (y :: ys) ↔ ys = x :: xs := by
  constructor
  · rintro ⟨p, c, s, h1, h2⟩
    cases p with
    | nil =>
      simp only [List.nil_append] at h1 h2
      obtain ⟨hc, hys⟩ := List.cons.injEq _ _ _ _ ▸ h2
      rw [hys, ← h1]
    | cons b p2 =>
      simp only [List.cons_append] at h1 h2
      obtain ⟨hab, _⟩ := List.cons.injEq _ _ _ _ ▸ h1
      obtain ⟨hab2, _⟩ := List.cons.injEq _ _ _ _ ▸ h2
      exact absurd (hab.trans hab2.symm) hxy
  · intro h
    exact ⟨[], y, x :: xs, rfl, by simp [h]⟩

lemma lev_cons_self (l : List Char) : ∀ c, lev l (c :: l) ≤ 1 := by
  induction l with
  | nil => intro c; simp [lev_nil_left]
  | cons x xs ih =>
    intro c
    by_cases hxc : x = c
    · rw [lev_cons_cons, if_pos hxc]
      exact hxc ▸ ih x
    · rw [lev_cons_cons, if_neg hxc]
      have h0 := lev_self (x :: xs)
      omega

lemma insertRel_lev {l r : List Char} (h : insertRel l r) : lev l r ≤ 1 := by
  obtain ⟨p, c, s, h1, h2⟩ := h
  subst h1 h2
  induction p with
  | nil => simpa using lev_cons_self s c
  | cons a p2 ih =>
    rw [List.cons_append, List.cons_append, lev_cons_cons, if_pos rfl]
    exact ih

lemma lev_insertRel {l : List Char} :
    ∀ {r}, r.length = l.length + 1 → lev l r ≤ 1 → insertRel l r := by
  induction l with
  | nil =>
    intro r hlen _
    cases r with
    | nil => simp at hlen
    | cons c ys =>
      simp only [List.length_cons, List.length_nil] at hlen
      have : ys = [] := List.eq_nil_of_length_eq_zero (by omega)
      subst this
      exact ⟨[], c, [], rfl, rfl⟩
  | cons x xs ih =>
    intro r hlen hlev
    cases r with
    | nil => simp at hlen
    | cons y ys =>
      simp only [List.length_cons] at hlen
      by_cases hxy : x = y
      · rw [lev_cons_cons, if_pos hxy] at hlev
        subst hxy
        exact insertRel_cons.mpr (@ih ys (by omega) hlev)
      · rw [lev_cons_cons, if_neg hxy] at hlev
        have hA := lev_length xs (y :: ys)
        have hC := lev_length xs ys
        simp only [List.length_cons] at hA hC
        have hB : lev (x :: xs) ys = 0 := by omega
        exact (insertRel_cons_ne hxy).mpr (lev_eq_zero hB).symm

lemma edLoopLt_one {l : List Char} :
    ∀ {r}, l.length = r.length → (edLoopLt l r 1 = true ↔ l = r) := by
  induction l with
  | nil =>
    intro r hlen
    cases r with
    | nil => simp [edLoopLt, edTail]
    | cons y ys => simp at hlen
  | cons x xs ih =>
    intro r hlen
    cases r with
    | nil => simp at hlen
    | cons y ys =>
      simp only [List.length_cons] at hlen
      by_cases hxy : x = y
      · rw [edLoopLt, if_pos hxy]
        rw [@ih ys (by omega)]
        simp [hxy]
      · rw [edLoopLt, if_neg hxy]
        simp [hxy]

lemma edLoopLt_zero {l : List Char} :
    ∀ {r}, r.length = l.length + 1 → (edLoopLt l r 0 = true ↔ insertRel l r) := by
  induction l with
  | nil =>
    intro r hlen
    cases r with
    | nil => simp at hlen
    | cons c ys =>
      simp only [List.length_cons, List.length_nil] at hlen
      have : ys = [] := List.eq_nil_of_length_eq_zero (by omega)
      subst this
      constructor
      · intro _
        exact ⟨[], c, [], rfl, rfl⟩
      · intro _
        simp [edLoopLt, edTail]
  | cons x xs ih =>
    intro r hlen
    cases r with
    | nil => simp at hlen
    | cons y ys =>
      simp only [List.length_cons] at hlen
      by_cases hxy : x = y
      · rw [edLoopLt, if_pos hxy]
        rw [@ih ys (by omega)]
        subst hxy
        exact insertRel_cons.symm
      · rw [edLoopLt, if_neg hxy]
        simp only [show ¬ ((0 : Nat) + 1 > 1) from by omega, if_false]
        rw [@edLoopLt_one (x :: xs) ys (by simp; omega)]
        rw [insertRel_cons_ne hxy]
        exact eq_comm

lemma edTail_swap (xs ys : List Char) (e : Nat) :
    edTail xs ys e = edTail ys xs e := by
  cases xs <;> cases ys <;> simp [edTail]

lemma edLoopGt_swap (l : List Char) :
    ∀ r e, edLoopGt l r e = edLoopLt r l e := by
  induction l with
  | nil =>
    intro r e
    cases r with
    | nil => rfl
    | cons y ys =>
      rw [show edLoopGt [] (y :: ys) e = edTail [] (y :: ys) e from rfl]
      rw [show edLoopLt (y :: ys) [] e = edTail (y :: ys) [] e from rfl]
      exact edTail_swap _ _ _
  | cons x xs ih =>
    intro r e
    cases r with
    | nil =>
      rw [show edLoopGt (x :: xs) [] e = edTail (x :: xs) [] e from rfl]
      rw [show edLoopLt [] (x :: xs) e = edTail [] (x :: xs) e from rfl]
      exact edTail_swap _ _ _
    | cons y ys =>
      by_cases hxy : x = y
      · rw [edLoopGt, if_pos hxy, edLoopLt, if_pos hxy.symm]
        exact ih ys e
      · have hyx : ¬ (y = x) := fun hc => hxy hc.symm
        rw [edLoopGt, edLoopLt]
        simp only [if_neg hxy, if_neg hyx]
        by_cases he : e + 1 > 1
        · simp [he]
        · simp only [he, if_false]
          exact ih (y :: ys) (e + 1)

/-- C7 amended: the two-pointer scan decides the plain Levenshtein
distance (insertions, deletions, substitutions — no transpositions):
`_edit_distance_at_most_one(left, right)` is true exactly when that
distance is at most one. -/
theorem c7_amended_levenshtein_le_one (l r : List Char) :
    edit_distance_at_most_one l r = true ↔ lev l r ≤ 1 := by
  unfold edit_distance_at_most_one
  by_cases heq : l = r
  · simp [heq, lev_self]
  · rw [if_neg heq]
    by_cases hbig : ((l.length : Int) - r.length > 1 ∨
        (r.length : Int) - l.length > 1)
    · rw [if_pos hbig]
      have hb := lev_length l r
      constructor
      · intro h
        exact absurd h (by simp)
      · intro h
        exfalso
        omega
    · rw [if_neg hbig]
      rcases Nat.lt_trichotomy l.length r.length with hlt | heqlen | hgt
      · have hcomp : compare l.length r.length = Ordering.lt :=
          Nat.compare_eq_lt.mpr hlt
        rw [hcomp]
        have hlen : r.length = l.length + 1 := by omega
        rw [edLoopLt_zero hlen]
        exact ⟨insertRel_lev, lev_insertRel hlen⟩
      · have hcomp : compare l.length r.length = Ordering.eq :=
          Nat.compare_eq_eq.mpr heqlen
        rw [hcomp]
        rw [edLoopEq_eval 0 heqlen]
        rw [lev_le_one_iff_mismatch heqlen]
        simp
      · have hcomp : compare l.length r.length = Ordering.gt :=
          Nat.compare_eq_gt.mpr hgt
        rw [hcomp]
        have hlen : l.length = r.length + 1 := by omega
        rw [edLoopGt_swap l r 0, edLoopLt_zero hlen, lev_comm l r]
        exact ⟨insertRel_lev, lev_insertRel hlen⟩


end Hacklytics
